import Mathlib

set_option maxHeartbeats 1000000

/-! # Shallow embedding of the maibot chat-summary core

Definitions translate, function by function, the analytics/validation
pipeline of src/core/analysis_utils.py and the daily scheduler of
src/plugin.py.  Text is modelled as Lean String / List Char (one entry
per Unicode scalar, matching Python str code points), machine integers
as Nat / Int.  Fallible code returns Option.
-/

/-! ## Character classes -/

/-- Whitespace as stripped by Python str.strip and matched by the regex
class backslash-s: space, tab, LF, VT, FF, CR.  (Rarely used non-ASCII
Unicode whitespace is not modelled.) -/
def isPyWs (c : Char) : Bool :=
  c.toNat == 32 || c.toNat == 9 || c.toNat == 10 ||
  c.toNat == 11 || c.toNat == 12 || c.toNat == 13

/-- ASCII decimal digit, the regex class backslash-d restricted to ASCII. -/
def isDigitCh (c : Char) : Bool :=
  48 ≤ c.toNat && c.toNat ≤ 57

/-- CJK ideograph range u4e00 to u9fff, the class used by the
whitespace-collapse regexes in analysis_utils.py. -/
def isIdeo (c : Char) : Bool :=
  0x4E00 ≤ c.toNat && c.toNat ≤ 0x9FFF

/-- Membership in the character class of ChatAnalysisUtils.EMOJI_PATTERN
(analysis_utils.py lines 24 to 35): the union of the seven codepoint
ranges written there. -/
def isEmojiChar (c : Char) : Bool :=
  let n := c.toNat
  (0x1F600 ≤ n && n ≤ 0x1F64F) ||
  (0x1F300 ≤ n && n ≤ 0x1F5FF) ||
  (0x1F680 ≤ n && n ≤ 0x1F6FF) ||
  (0x1F1E0 ≤ n && n ≤ 0x1F1FF) ||
  (0x2702 ≤ n && n ≤ 0x27B0) ||
  (0x24C2 ≤ n && n ≤ 0x1F251) ||
  (0x1F900 ≤ n && n ≤ 0x1F9FF)

/-- Python str.strip on a character list: drop whitespace at both ends. -/
def pyStripL (l : List Char) : List Char :=
  ((l.dropWhile isPyWs).reverse.dropWhile isPyWs).reverse

/-- Python str.strip. -/
def pyStrip (s : String) : String :=
  (pyStripL s.toList).asString

/-- Python str.upper, restricted to ASCII case mapping. -/
def pyUpper (s : String) : String :=
  (s.toList.map Char.toUpper).asString

/-- Python slicing s[:n]: keep the first n code points. -/
def pyTake (s : String) (n : Nat) : String :=
  (s.toList.take n).asString

/-! ## StatsAggregator (analysis_utils.py lines 61 to 116) -/

/-- Helper for count_emojis: one pass over the text; the Boolean says
whether the previous character was inside an emoji run.  This embeds
EMOJI_PATTERN.findall, whose pattern is a character class followed by +,
so each maximal run of class members is one match. -/
def countRunsAux : List Char → Bool → Nat
  | [], _ => 0
  | c :: rest, inRun =>
    if isEmojiChar c then (if inRun then 0 else 1) + countRunsAux rest true
    else countRunsAux rest false

/-- ChatAnalysisUtils.count_emojis: the number of matches of
EMOJI_PATTERN in the text, i.e. the number of maximal runs of
emoji-class characters. -/
def count_emojis (s : String) : Nat :=
  countRunsAux s.toList false

/-- One transcript message as consumed by analyze_user_stats.
user_id models str(msg.get("user_id", "")) (empty when absent),
nickname models msg.get("user_nickname", default), text models the raw
processed_plain_text value (none when absent or null), time the numeric
msg.get("time", 0). -/
structure ChatMessage where
  user_id : String
  nickname : String
  text : Option String
  time : Int

/-- The text actually used: msg.get("processed_plain_text") or "". -/
def ChatMessage.effText (m : ChatMessage) : String :=
  m.text.getD ""

/-- Per-user statistics record built by analyze_user_stats.  hours is
the Counter of per-hour message counts, modelled densely as a function
(absent key = 0, exactly the Counter default). -/
structure UserStats where
  nickname : String
  message_count : Nat
  char_count : Nat
  emoji_count : Nat
  hours : Nat → Nat

/-- Fresh stats entry for a first-seen user (analysis_utils.py lines
94 to 102). -/
def emptyStats (nick : String) : UserStats :=
  ⟨nick, 0, 0, 0, fun _ => 0⟩

/-- One message increments counters and the hour bucket (lines 104 to
114).  hourFn models datetime.fromtimestamp(t).hour, the zone-local
hour of the timestamp; it is kept abstract because it depends on the
host time zone, and every use assumes only that it lands in 0..23. -/
def bumpStats (hourFn : Int → Nat) (m : ChatMessage) (s : UserStats) : UserStats :=
  let t := m.effText
  let h := hourFn m.time
  { s with
    message_count := s.message_count + 1
    char_count := s.char_count + t.length
    emoji_count := s.emoji_count + count_emojis t
    hours := fun k => if k = h then s.hours k + 1 else s.hours k }

/-- Replace the value at the (unique) key uid. -/
def updateEntry (uid : String) (f : UserStats → UserStats) :
    List (String × UserStats) → List (String × UserStats)
  | [] => []
  | (k, v) :: rest =>
    if k = uid then (k, f v) :: rest else (k, v) :: updateEntry uid f rest

/-- Processing of one message by the analyze_user_stats loop body:
skip empty user_id, create the entry on first sight (dict insertion
order = append at the end), then increment. -/
def statsStep (hourFn : Int → Nat) (acc : List (String × UserStats))
    (m : ChatMessage) : List (String × UserStats) :=
  if m.user_id = "" then acc
  else
    match acc.lookup m.user_id with
    | some _ => updateEntry m.user_id (bumpStats hourFn m) acc
    | none => acc ++ [(m.user_id, bumpStats hourFn m (emptyStats m.nickname))]

/-- ChatAnalysisUtils.analyze_user_stats (lines 74 to 116): fold the
loop body over the transcript, starting from the empty dict.  The dict
user_id to stats is modelled as an association list in insertion
order. -/
def analyze_user_stats (hourFn : Int → Nat) (msgs : List ChatMessage) :
    List (String × UserStats) :=
  msgs.foldl (statsStep hourFn) []

/-! ## Scheduler (plugin.py lines 486 to 538) -/

def microsPerDay : Int := 86400000000

/-- now.replace(hour, minute, second 0, microsecond 0) at plugin.py
line 505, with zone-local time modelled as an absolute count of
microseconds (the zone-local calendar is taken uniform; daylight-saving
jumps are outside the model).  The day index is the floor division by
the length of a day. -/
def compute_today_schedule (now : Int) (hour minute : Nat) : Int :=
  (Int.ediv now microsPerDay) * microsPerDay +
    (((hour * 3600 + minute * 60) : Nat) : Int) * 1000000

/-- Lines 505 to 509: combine the current date with the configured
hour:minute; if that instant is already reached (now at or past it),
advance one day. -/
def compute_next_fire (now : Int) (hour minute : Nat) : Int :=
  let today := compute_today_schedule now hour minute
  if today ≤ now then today + microsPerDay else today

/-- Line 512: wait_seconds, kept in microseconds. -/
def wait_micros (now : Int) (hour minute : Nat) : Int :=
  compute_next_fire now hour minute - now

/-- What one wake-up of the _schedule_loop cycle observes:
whether is_running was still true after the sleep (line 519), the
re-read zone-local date (line 523, modelled as a day index), and
whether the job callback completed without raising (lines 529 to 530:
the last-fired date is recorded only after normal completion). -/
structure CycleInput where
  running_after_sleep : Bool
  wake_date : Int
  job_ok : Bool

/-- The scheduler loop of plugin.py lines 492 to 538, abstracted over
the sequence of wake-ups; the state is last_execution_date.  Returns
the dates at which the job callback was invoked, in order.  A false
running_after_sleep models the break at line 520; equality with the
last-fired date models the continue at lines 524 to 525 (the loop then
recomputes the next instant); a raising callback (job_ok false) is
caught at line 535 and does not record the date. -/
def run_sched (last : Option Int) : List CycleInput → List Int
  | [] => []
  | inp :: rest =>
    if inp.running_after_sleep = false then []
    else if last = some inp.wake_date then run_sched last rest
    else
      inp.wake_date ::
        run_sched (if inp.job_ok then some inp.wake_date else last) rest

/-! ## Parsed JSON values and Python coercions -/

/-- A parsed JSON value as produced by json.loads.  Numbers are
restricted to integers (the transcripts under test use none but
integers; float literals are treated as unparseable). -/
inductive JVal where
  | jnull : JVal
  | jbool : Bool → JVal
  | jnum : Int → JVal
  | jstr : String → JVal
  | jarr : List JVal → JVal
  | jobj : List (String × JVal) → JVal

def isObj : JVal → Bool
  | JVal.jobj _ => true
  | _ => false

def sglq : String := String.singleton (Char.ofNat 39)

mutual
/-- Python repr of a parsed value, used for values nested inside
containers (string escaping and quote selection are simplified to a
plain single-quoted form). -/
def pyRepr : JVal → String
  | JVal.jnull => "None"
  | JVal.jbool b => if b then "True" else "False"
  | JVal.jnum n => toString n
  | JVal.jstr s => sglq ++ s ++ sglq
  | JVal.jarr xs => "[" ++ pyReprItems xs ++ "]"
  | JVal.jobj fs => "\x7b" ++ pyReprFields fs ++ "\x7d"
def pyReprItems : List JVal → String
  | [] => ""
  | [x] => pyRepr x
  | x :: y :: rest => pyRepr x ++ ", " ++ pyReprItems (y :: rest)
def pyReprFields : List (String × JVal) → String
  | [] => ""
  | [(k, v)] => sglq ++ k ++ sglq ++ ": " ++ pyRepr v
  | (k, v) :: f :: rest =>
    sglq ++ k ++ sglq ++ ": " ++ pyRepr v ++ ", " ++ pyReprFields (f :: rest)
end

/-- Python str() applied to a parsed value. -/
def pyStr : JVal → String
  | JVal.jnull => "None"
  | JVal.jbool b => if b then "True" else "False"
  | JVal.jnum n => toString n
  | JVal.jstr s => s
  | JVal.jarr xs => "[" ++ pyReprItems xs ++ "]"
  | JVal.jobj fs => "\x7b" ++ pyReprFields fs ++ "\x7d"

/-- Python int() applied to a decimal string: strip whitespace, an
optional sign, then ASCII digits.  (Underscore separators and non-ASCII
digits are not modelled.)  none models a raised ValueError. -/
def parseIntStr (s : String) : Option Int :=
  let cs := pyStripL s.toList
  let signed : Bool × List Char :=
    match cs with
    | c :: rest => if c = '-' then (true, rest) else if c = '+' then (false, rest) else (false, cs)
    | [] => (false, [])
  let ds := signed.2
  if ds ≠ [] ∧ ds.all isDigitCh then
    let n : Int := (ds.foldl (fun a c => a * 10 + (c.toNat - 48)) 0 : Nat)
    some (if signed.1 then -n else n)
  else none

/-- Python int() applied to a parsed value; none models a raised
ValueError or TypeError. -/
def pyInt : JVal → Option Int
  | JVal.jnum n => some n
  | JVal.jbool b => some (if b then 1 else 0)
  | JVal.jstr s => parseIntStr s
  | _ => none

/-! ## ResponseRecovery (analysis_utils.py lines 1021 to 1171) -/

def isBacktick (c : Char) : Bool := c.toNat == 96
def dquote : Char := Char.ofNat 34
def lbrace : Char := Char.ofNat 123
def rbrace : Char := Char.ofNat 125

/-- The characters before the next fence marker (three backticks), or
the whole list when there is none: parts[1] of result.split on the
fence marker, for a result that starts with the marker. -/
def takeUntilFence : List Char → List Char
  | a :: b :: c :: rest =>
    if isBacktick a && isBacktick b && isBacktick c then []
    else a :: takeUntilFence (b :: c :: rest)
  | l => l

/-- Markdown code-fence stripping (lines 1101 to 1107): when the text
starts with a fence marker, keep what stands between the first and the
second marker, and drop a leading language tag json. -/
def stripFence (l : List Char) : List Char :=
  match l with
  | a :: b :: c :: rest =>
    if isBacktick a && isBacktick b && isBacktick c then
      match takeUntilFence rest with
      | 'j' :: 's' :: 'o' :: 'n' :: r => r
      | part => part
    else l
  | _ => l

/-- Index of the last occurrence of c, Python str.rfind. -/
def rlastIdx (c : Char) (l : List Char) : Option Nat :=
  match l.reverse.findIdx? (fun x => x = c) with
  | some j => some (l.length - 1 - j)
  | none => none

/-- Lines 1112 to 1116 (and 1043 to 1047): slice from the first
occurrence of the opening bracket to the last occurrence of the closing
bracket, when both exist in that order. -/
def extractSpan (openB closeB : Char) (l : List Char) : List Char :=
  match l.findIdx? (fun x => x = openB), rlastIdx closeB l with
  | some i, some j => if i < j then (l.drop i).take (j - i + 1) else l
  | _, _ => l

/-- The text handed to json.loads by tier 1 (lines 1100 to 1119):
strip, unfence, strip again, slice to the bracket span. -/
def tier1Text (openB closeB : Char) (s : String) : List Char :=
  extractSpan openB closeB (pyStripL (stripFence (pyStripL s.toList)))

/-- Fuelled worker for fixPair; the fuel is an upper bound on the
number of characters still to scan, so with fuel at least the length
of the list the zero-fuel case is never reached. -/
def fixPairF (p q : Char → Bool) : Nat → List Char → List Char
  | 0, l => l
  | _, [] => []
  | f + 1, c :: rest =>
    if p c && !(rest.takeWhile isPyWs).isEmpty then
      match rest.dropWhile isPyWs with
      | d :: rest2 =>
        if q d then c :: d :: fixPairF p q f rest2 else c :: fixPairF p q f rest
      | [] => c :: fixPairF p q f rest
    else c :: fixPairF p q f rest

/-- One re.sub of a pattern class-p, one-or-more-whitespace, class-q,
replaced by the two captured characters: the left-to-right scan of the
regex engine, where a replacement consumes both captured characters
before the scan resumes. -/
def fixPair (p q : Char → Bool) (l : List Char) : List Char :=
  fixPairF p q l.length l

/-- EMOJI_PATTERN.sub with the empty replacement: drop every character
of the emoji class. -/
def emojiSub (l : List Char) : List Char :=
  l.filter (fun c => !(isEmojiChar c))

/-- The cleaned text of the array repair tier (lines 1137 to 1152):
emoji removal, bracket-span re-location, then the three whitespace
collapses (ideograph-ideograph, ideograph-digit, digit-ideograph). -/
def tier2CleanArray (l : List Char) : List Char :=
  fixPair isDigitCh isIdeo (fixPair isIdeo isDigitCh (fixPair isIdeo isIdeo
    (extractSpan '[' ']' (emojiSub l))))

/-- The cleaned text of the object repair tier (lines 1061 to 1073):
emoji removal, brace-span re-location, then the ideograph-ideograph
whitespace collapse. -/
def tier2CleanObject (l : List Char) : List Char :=
  fixPair isIdeo isIdeo (extractSpan lbrace rbrace (emojiSub l))

/-- Modelled from the spec (section 4.2, repair attempt): remove the
emoji-range codepoints from the sliced text, re-locate the bracket
span, collapse whitespace between adjacent ideographic characters and
between an ideographic character and an adjacent digit in both
directions.  Comparison point for the refinement claim about the
repair tier. -/
def tier2CleanSpec (openB closeB : Char) (l : List Char) : List Char :=
  fixPair isDigitCh isIdeo (fixPair isIdeo isDigitCh (fixPair isIdeo isIdeo
    (extractSpan openB closeB (emojiSub l))))

/-! ## json.loads (the structured-data parser called by both tiers) -/

/-- Whitespace admitted between JSON tokens: space, tab, LF, CR. -/
def isJsonWs (c : Char) : Bool :=
  c.toNat == 32 || c.toNat == 9 || c.toNat == 10 || c.toNat == 13

def hexDigit (c : Char) : Option Nat :=
  if 48 ≤ c.toNat ∧ c.toNat ≤ 57 then some (c.toNat - 48)
  else if 97 ≤ c.toNat ∧ c.toNat ≤ 102 then some (c.toNat - 87)
  else if 65 ≤ c.toNat ∧ c.toNat ≤ 70 then some (c.toNat - 55)
  else none

/-- The single-character string escapes of JSON. -/
def escMap (c : Char) : Option Char :=
  if c = dquote then some dquote
  else if c.toNat == 92 then some c
  else if c = '/' then some '/'
  else if c = 'b' then some (Char.ofNat 8)
  else if c = 'f' then some (Char.ofNat 12)
  else if c = 'n' then some (Char.ofNat 10)
  else if c = 'r' then some (Char.ofNat 13)
  else if c = 't' then some (Char.ofNat 9)
  else none

/-- String body parser, positioned after the opening quote.  Raw
control characters are rejected (json.loads runs in strict mode);
surrogate-pair recombination of backslash-u escapes is not modelled. -/
def parseJStr : Nat → List Char → Option (String × List Char)
  | 0, _ => none
  | _, [] => none
  | f + 1, c :: rest =>
    if c = dquote then some ("", rest)
    else if c.toNat == 92 then
      match rest with
      | [] => none
      | e :: rest2 =>
        if e = 'u' then
          match rest2 with
          | h1 :: h2 :: h3 :: h4 :: rest3 =>
            match hexDigit h1, hexDigit h2, hexDigit h3, hexDigit h4 with
            | some a, some b, some c2, some d =>
              match parseJStr f rest3 with
              | some (s, r) =>
                some (String.singleton (Char.ofNat (((a * 16 + b) * 16 + c2) * 16 + d)) ++ s, r)
              | none => none
            | _, _, _, _ => none
          | _ => none
        else
          match escMap e with
          | some ch =>
            match parseJStr f rest2 with
            | some (s, r) => some (String.singleton ch ++ s, r)
            | none => none
          | none => none
    else if c.toNat < 32 then none
    else
      match parseJStr f rest with
      | some (s, r) => some (String.singleton c ++ s, r)
      | none => none

def digitsToNat (ds : List Char) : Nat :=
  ds.foldl (fun a c => a * 10 + (c.toNat - 48)) 0

/-- JSON number parser, restricted to integers: an optional minus sign
and digits without a redundant leading zero.  A fraction or exponent
part makes the whole load fail in this model (the pipeline under test
never relies on float values). -/
def parseJNum (l : List Char) : Option (Int × List Char) :=
  let neg : Bool := match l with | c :: _ => c = '-' | [] => false
  let l1 := if neg then l.tail else l
  let ds := l1.takeWhile isDigitCh
  let rest := l1.dropWhile isDigitCh
  if ds.isEmpty then none
  else if ds.length > 1 ∧ ds.head? = some '0' then none
  else
    match rest with
    | c :: _ =>
      if c = '.' ∨ c = 'e' ∨ c = 'E' then none
      else some (if neg then -(digitsToNat ds : Int) else (digitsToNat ds : Int), rest)
    | [] => some (if neg then -(digitsToNat ds : Int) else (digitsToNat ds : Int), [])

/-- Object field update with dict semantics: a repeated key overwrites
the earlier value in place, a new key is appended. -/
def insertKV (fs : List (String × JVal)) (k : String) (v : JVal) : List (String × JVal) :=
  if fs.any (fun p => p.1 = k) then
    fs.map (fun p => if p.1 = k then (k, v) else p)
  else fs ++ [(k, v)]

mutual
/-- Recursive-descent JSON value parser (fuelled; the fuel given by
jsonLoads always suffices for the inputs considered). -/
def parseJ : Nat → List Char → Option (JVal × List Char)
  | 0, _ => none
  | f + 1, l =>
    match l.dropWhile isJsonWs with
    | [] => none
    | c :: rest =>
      if c = 'n' then
        match rest with
        | 'u' :: 'l' :: 'l' :: r => some (JVal.jnull, r)
        | _ => none
      else if c = 't' then
        match rest with
        | 'r' :: 'u' :: 'e' :: r => some (JVal.jbool true, r)
        | _ => none
      else if c = 'f' then
        match rest with
        | 'a' :: 'l' :: 's' :: 'e' :: r => some (JVal.jbool false, r)
        | _ => none
      else if c = dquote then
        match parseJStr (f + 1) rest with
        | some (s, r) => some (JVal.jstr s, r)
        | none => none
      else if c = '[' then
        match rest.dropWhile isJsonWs with
        | d :: r2 =>
          if d = ']' then some (JVal.jarr [], r2)
          else
            match parseJ f rest with
            | some (v, r) => parseJArrRest f [v] r
            | none => none
        | [] => none
      else if c = lbrace then
        match rest.dropWhile isJsonWs with
        | d :: r2 =>
          if d = rbrace then some (JVal.jobj [], r2)
          else parseJObjField f [] rest
        | [] => none
      else
        match parseJNum (c :: rest) with
        | some (n, r) => some (JVal.jnum n, r)
        | none => none
def parseJArrRest : Nat → List JVal → List Char → Option (JVal × List Char)
  | 0, _, _ => none
  | f + 1, acc, l =>
    match l.dropWhile isJsonWs with
    | ',' :: r =>
      match parseJ f r with
      | some (v, r2) => parseJArrRest f (acc ++ [v]) r2
      | none => none
    | ']' :: r => some (JVal.jarr acc, r)
    | _ => none
def parseJObjField : Nat → List (String × JVal) → List Char → Option (JVal × List Char)
  | 0, _, _ => none
  | f + 1, acc, l =>
    match l.dropWhile isJsonWs with
    | c :: r =>
      if c = dquote then
        match parseJStr (f + 1) r with
        | some (k, r2) =>
          match r2.dropWhile isJsonWs with
          | ':' :: r3 =>
            match parseJ f r3 with
            | some (v, r4) => parseJObjRest f (insertKV acc k v) r4
            | none => none
          | _ => none
        | none => none
      else none
    | [] => none
def parseJObjRest : Nat → List (String × JVal) → List Char → Option (JVal × List Char)
  | 0, _, _ => none
  | f + 1, acc, l =>
    match l.dropWhile isJsonWs with
    | ',' :: r => parseJObjField f acc r
    | c :: r => if c = rbrace then some (JVal.jobj acc, r) else none
    | [] => none
end

/-- json.loads: parse one JSON value and require nothing but
whitespace after it; none models a raised JSONDecodeError. -/
def jsonLoads (l : List Char) : Option JVal :=
  match parseJ (3 * l.length + 9) l with
  | some (v, rest) => if (rest.dropWhile isJsonWs).isEmpty then some v else none
  | none => none

/-- ChatAnalysisUtils._parse_llm_json (lines 1089 to 1171): tier 1
slices and parses; a decode error triggers the tier-2 repair on the
sliced text; a parsed value of the wrong shape, or exhaustion of both
tiers, yields the empty list.  Totality of this definition reflects
that the Python function catches every exception class it can raise. -/
def parse_llm_json (s : String) : List JVal :=
  let t1 := tier1Text '[' ']' s
  match jsonLoads t1 with
  | some (JVal.jarr xs) => if xs.all isObj then xs else []
  | some _ => []
  | none =>
    match jsonLoads (tier2CleanArray t1) with
    | some (JVal.jarr xs) => if xs.all isObj then xs else []
    | _ => []

/-- ChatAnalysisUtils._parse_llm_json_object (lines 1021 to 1087):
same two tiers with braces, returning the parsed mapping, and none as
the distinct absent value on any failure. -/
def parse_llm_json_object (s : String) : Option (List (String × JVal)) :=
  let t1 := tier1Text lbrace rbrace s
  match jsonLoads t1 with
  | some (JVal.jobj fs) => some fs
  | some _ => none
  | none =>
    match jsonLoads (tier2CleanObject t1) with
    | some (JVal.jobj fs) => some fs
    | _ => none

/-! ## RecordValidators -/

def hasKey (fields : List (String × JVal)) (k : String) : Bool :=
  (fields.lookup k).isSome

def getKey (fields : List (String × JVal)) (k : String) : JVal :=
  (fields.lookup k).getD JVal.jnull

/-- Python item.get(k, d). -/
def getKeyD (fields : List (String × JVal)) (k : String) (d : JVal) : JVal :=
  (fields.lookup k).getD d

/-- Best-effort user-id backfill (lines 612 to 618 and 713 to 719):
the first user_stats entry whose nickname equals the name.  Only the
nickname of each stats record is consulted, so user_stats is modelled
as the association list user_id to nickname, in dict insertion
order. -/
def backfillUid (ustats : List (String × String)) (name : String) : String :=
  match ustats.find? (fun p => p.2 = name) with
  | some p => p.1
  | none => ""

/-- A validated rank-index record (the RankEntry variant). -/
structure RankEntry where
  name : String
  rank : String
  score : Int
  comment : String
  user_id : String
deriving DecidableEq

/-- The rank-dependent default scores of line 710. -/
def rankDefaultScores : List (String × Int) :=
  [("S", 135), ("A", 105), ("B", 75), ("C", 45), ("D", 15)]

/-- The per-item body of _validate_depression_index (lines 682 to
727): require the keys name, rank, comment; truncate; normalize the
rank and drop the item unless it is one of S A B C D; drop empty
fields; coerce the score with int() and clamp to 0..150, substituting
the rank default when int() raises; backfill the user id. -/
def validateDepItem (ustats : List (String × String)) (item : JVal) :
    Option RankEntry :=
  match item with
  | JVal.jobj fields =>
    if hasKey fields "name" && hasKey fields "rank" && hasKey fields "comment" then
      let name := pyTake (pyStr (getKey fields "name")) 50
      let rank := pyStrip (pyUpper (pyStr (getKey fields "rank")))
      let comment := pyTake (pyStr (getKey fields "comment")) 60
      if rank = "S" ∨ rank = "A" ∨ rank = "B" ∨ rank = "C" ∨ rank = "D" then
        if name ≠ "" ∧ rank ≠ "" ∧ comment ≠ "" then
          let score : Int :=
            match pyInt (getKeyD fields "score" (JVal.jnum 0)) with
            | some n => max 0 (min 150 n)
            | none => (rankDefaultScores.lookup rank).getD 75
          some ⟨name, rank, score, comment, backfillUid ustats name⟩
        else none
      else none
    else none
  | _ => none

/-- Stable insertion for the descending sort: a new element goes
before the first element whose score it reaches, so elements already
present keep their order and an earlier list element inserted later
lands before later elements of equal score. -/
def insertByScore (x : RankEntry) : List RankEntry → List RankEntry
  | [] => [x]
  | y :: ys => if y.score ≤ x.score then x :: y :: ys else y :: insertByScore x ys

/-- list.sort(key score, reverse True) at line 730: a stable sort by
score descending. -/
def sortByScoreDesc : List RankEntry → List RankEntry
  | [] => []
  | x :: xs => insertByScore x (sortByScoreDesc xs)

/-- ChatAnalysisUtils._validate_depression_index (lines 670 to 732). -/
def validate_depression_index (ustats : List (String × String))
    (data : List JVal) : List RankEntry :=
  sortByScoreDesc (data.filterMap (validateDepItem ustats))

/-- A validated titled-profile record (the TitledProfile variant). -/
structure TitledProfile where
  name : String
  title : String
  mbti : String
  reason : String
  user_id : String
deriving DecidableEq

/-- The closed 16-value personality-type set of lines 581 to 586. -/
def validMbti : List String :=
  ["INTJ", "INTP", "ENTJ", "ENTP", "INFJ", "INFP", "ENFJ", "ENFP",
   "ISTJ", "ISFJ", "ESTJ", "ESFJ", "ISTP", "ISFP", "ESTP", "ESFP"]

/-- The per-item body of _validate_titles (lines 589 to 626): require
the keys name, title, mbti, reason; truncate name to 50 and title and
reason to the configured bounds (the AnalysisConfig constants module
is not among the sources, so the two bounds are parameters); normalize
the tag and substitute ENFP when it is not in the closed set; drop the
item when a required string is empty; backfill the user id. -/
def validateTitleItem (maxTitle maxReason : Nat)
    (ustats : List (String × String)) (item : JVal) : Option TitledProfile :=
  match item with
  | JVal.jobj fields =>
    if hasKey fields "name" && hasKey fields "title" &&
        hasKey fields "mbti" && hasKey fields "reason" then
      let name := pyTake (pyStr (getKey fields "name")) 50
      let title := pyTake (pyStr (getKey fields "title")) maxTitle
      let mbti0 := pyStrip (pyUpper (pyStr (getKey fields "mbti")))
      let reason := pyTake (pyStr (getKey fields "reason")) maxReason
      let mbti := if mbti0 ∈ validMbti then mbti0 else "ENFP"
      if name ≠ "" ∧ title ≠ "" ∧ reason ≠ "" then
        some ⟨name, title, mbti, reason, backfillUid ustats name⟩
      else none
    else none
  | _ => none

/-- ChatAnalysisUtils._validate_titles (lines 569 to 628). -/
def validate_titles (maxTitle maxReason : Nat)
    (ustats : List (String × String)) (data : List JVal) :
    List TitledProfile :=
  data.filterMap (validateTitleItem maxTitle maxReason ustats)

/-! ## Derived quantities used by the stated properties -/

/-- Sum of the 24 hourly buckets of one user. -/
def hourSum (s : UserStats) : Nat :=
  ((List.range 24).map s.hours).sum

/-- Sum of message_count over all users of an aggregation result. -/
def msgCountSum (acc : List (String × UserStats)) : Nat :=
  (acc.map (fun p => p.2.message_count)).sum

/-- Total emoji-run count of the messages a given user posted. -/
def emojiTotal (uid : String) (msgs : List ChatMessage) : Nat :=
  ((msgs.filter (fun m => m.user_id = uid)).map
    (fun m => count_emojis m.effText)).sum

/-- The loop invariant of analyze_user_stats relating the accumulator
dict to the already-processed prefix of the transcript. -/
def statsInv (acc : List (String × UserStats)) (L : List ChatMessage) : Prop :=
  (acc.map Prod.fst).Nodup ∧
  (∀ p ∈ acc, p.1 ≠ "") ∧
  msgCountSum acc = (L.filter (fun m => m.user_id ≠ "")).length ∧
  (∀ p ∈ acc, hourSum p.2 = p.2.message_count) ∧
  (∀ p ∈ acc, p.2.emoji_count = emojiTotal p.1 L) ∧
  (∀ m ∈ L, m.user_id ≠ "" → m.user_id ∈ acc.map Prod.fst)

/-! # Theorems -/

/-- C1: evaluation of the rank validator at the failing input.  A
well-formed item with rank S, name and comment present, and no score
key at all is emitted with score 0: item.get with default 0 hands 0 to
int(), which succeeds, so the rank-dependent default branch (which
would give 135, and which the inline comment at line 709 says should
cover the no-score case) is never reached for an absent key. -/
theorem spec2_C1 :
    (validate_depression_index []
      [JVal.jobj [("name", JVal.jstr "n"), ("rank", JVal.jstr "S"),
        ("comment", JVal.jstr "c")]]).map (fun e => e.score) = [0] := by
  decide

/-- C6: each cycle combines the current zone-local date with the
configured hour and minute, and advances the instant by one day
exactly when it is not strictly in the future; with fire time 23:00, a
now of 22:00 waits one hour to 23:00 the same day, and a now of 23:30
waits 23.5 hours to 23:00 the next day (times in microseconds from the
zone-local epoch, day 0). -/
theorem spec2_C6 :
    (∀ (now : Int) (h m : Nat),
      (compute_next_fire now h m =
          compute_today_schedule now h m + microsPerDay
        ↔ compute_today_schedule now h m ≤ now)) ∧
    wait_micros 79200000000 23 0 = 3600000000 ∧
    compute_next_fire 79200000000 23 0 = 82800000000 ∧
    wait_micros 84600000000 23 0 = 84600000000 ∧
    compute_next_fire 84600000000 23 0 = 82800000000 + microsPerDay := by
  refine ⟨fun now h m => ?_, by decide, by decide, by decide, by decide⟩
  by_cases hc : compute_today_schedule now h m ≤ now
  · simp [compute_next_fire, hc]
  · simp only [compute_next_fire, if_neg hc]
    constructor
    · intro heq
      exfalso
      have hz : microsPerDay = 86400000000 := rfl
      omega
    · intro hle
      exact absurd hle hc


/-- Once the last-fired date is at least e, a date d at or before e is
never fired again provided the re-read dates never go backwards. -/
theorem run_sched_not_mem (d : Int) :
    ∀ (inputs : List CycleInput) (e : Int), d ≤ e →
      (∀ i ∈ inputs, i.job_ok = true) →
      List.Pairwise (fun a b => a.wake_date ≤ b.wake_date) inputs →
      (∀ i ∈ inputs, e ≤ i.wake_date) →
      d ∉ run_sched (some e) inputs := by
  intro inputs
  induction inputs with
  | nil => intro e _ _ _ _; simp [run_sched]
  | cons inp rest ih =>
    intro e hde hok hpair hge
    have hoktail : ∀ i ∈ rest, i.job_ok = true :=
      fun i hi => hok i (List.mem_cons_of_mem _ hi)
    have hpc := List.pairwise_cons.mp hpair
    by_cases hrun : inp.running_after_sleep = false
    · simp [run_sched, hrun]
    · by_cases hskip : (some e : Option Int) = some inp.wake_date
      · have hrw : run_sched (some e) (inp :: rest) = run_sched (some e) rest := by
          simp [run_sched, hrun, hskip]
        rw [hrw]
        exact ih e hde hoktail hpc.2 (fun i hi => hge i (List.mem_cons_of_mem _ hi))
      · have hokhead : inp.job_ok = true := hok inp (List.mem_cons_self _ _)
        have hrw : run_sched (some e) (inp :: rest) =
            inp.wake_date :: run_sched (some inp.wake_date) rest := by
          simp [run_sched, hrun, hskip, hokhead]
        rw [hrw]
        have hew : e ≤ inp.wake_date := hge inp (List.mem_cons_self _ _)
        have hne : e ≠ inp.wake_date := fun h => hskip (by rw [h])
        intro hmem
        rcases List.mem_cons.mp hmem with h1 | h1
        · omega
        · exact ih inp.wake_date (by omega) hoktail hpc.2 hpc.1 h1

/-- C5: the duplicate-fire guard.  First, when the last successful
fire was recorded for date D and the re-read date is still D, the
cycle skips the callback and just loops (recomputing the next instant
at the top of the loop).  Second, over any whole trace in which every
invoked callback completes and the re-read dates never decrease, no
date is invoked more than once in one scheduler lifetime. -/
theorem spec2_C5 :
    (∀ (D : Int) (ok : Bool) (rest : List CycleInput),
      run_sched (some D)
        ({ running_after_sleep := true, wake_date := D, job_ok := ok } :: rest) =
        run_sched (some D) rest) ∧
    (∀ (last : Option Int) (inputs : List CycleInput) (D : Int),
      (∀ i ∈ inputs, i.job_ok = true) →
      List.Pairwise (· ≤ ·) (inputs.map CycleInput.wake_date) →
      (run_sched last inputs).count D ≤ 1) := by
  constructor
  · intro D ok rest
    simp [run_sched]
  · intro last inputs
    induction inputs generalizing last with
    | nil => intro D _ _; simp [run_sched]
    | cons inp rest ih =>
      intro D hok hpairm
      have hpair := List.pairwise_map.mp hpairm
      have hpc := List.pairwise_cons.mp hpair
      have hoktail : ∀ i ∈ rest, i.job_ok = true :=
        fun i hi => hok i (List.mem_cons_of_mem _ hi)
      have hpairmtail : List.Pairwise (fun a b : Int => a ≤ b)
          (rest.map CycleInput.wake_date) := List.pairwise_map.mpr hpc.2
      by_cases hrun : inp.running_after_sleep = false
      · simp [run_sched, hrun]
      · by_cases hskip : last = some inp.wake_date
        · have hrw : run_sched last (inp :: rest) = run_sched last rest := by
            simp [run_sched, hrun, hskip]
          rw [hrw]
          exact ih last D hoktail hpairmtail
        · have hokhead : inp.job_ok = true := hok inp (List.mem_cons_self _ _)
          have hrw : run_sched last (inp :: rest) =
              inp.wake_date :: run_sched (some inp.wake_date) rest := by
            simp [run_sched, hrun, hskip, hokhead]
          rw [hrw]
          by_cases hD : D = inp.wake_date
          · have hnot : D ∉ run_sched (some inp.wake_date) rest := by
              apply run_sched_not_mem D rest inp.wake_date (le_of_eq hD)
                hoktail hpc.2 hpc.1
            have hz : (run_sched (some inp.wake_date) rest).count D = 0 :=
              List.count_eq_zero.mpr hnot
            rw [hD] at hz ⊢
            simp [List.count_cons, hz]
          · have htail := ih (some inp.wake_date) D hoktail hpairmtail
            have hD2 : ¬(inp.wake_date = D) := fun h => hD h.symm
            simpa [List.count_cons, hD2] using htail

/-- Witness for C5 at a concrete trace: a wake-up on the already-fired
date 7 is skipped, and a trace waking twice on date 5 and once on
date 6 invokes date 5 only once. -/
theorem spec2_C5_witness :
    run_sched (some 7)
      ({ running_after_sleep := true, wake_date := 7, job_ok := true } :: []) =
      run_sched (some 7) [] ∧
    (run_sched none
      [{ running_after_sleep := true, wake_date := 5, job_ok := true },
       { running_after_sleep := true, wake_date := 5, job_ok := true },
       { running_after_sleep := true, wake_date := 6, job_ok := true }]).count 5 ≤ 1 :=
  ⟨spec2_C5.1 7 true [], spec2_C5.2 none _ 5 (by decide) (by decide)⟩

/-- C4: an item whose rank letter, uppercased and trimmed, is not one
of S A B C D is dropped entirely from the rank-index output, and the
other items of the batch are exactly those of the batch without it. -/
theorem spec2_C4 :
    ∀ (ustats : List (String × String)) (pre post : List JVal)
      (fields : List (String × JVal)) (v : JVal),
      fields.lookup "rank" = some v →
      ¬(pyStrip (pyUpper (pyStr v)) = "S" ∨ pyStrip (pyUpper (pyStr v)) = "A" ∨
        pyStrip (pyUpper (pyStr v)) = "B" ∨ pyStrip (pyUpper (pyStr v)) = "C" ∨
        pyStrip (pyUpper (pyStr v)) = "D") →
      validate_depression_index ustats (pre ++ JVal.jobj fields :: post) =
        validate_depression_index ustats (pre ++ post) := by
  intro ustats pre post fields v hv hrank
  have hitem : validateDepItem ustats (JVal.jobj fields) = none := by
    simp [validateDepItem, getKey, hv, hrank]
  simp [validate_depression_index, List.filterMap_append, List.filterMap_cons, hitem]

/-- Witness for C4: a batch holding one valid item and one item with
rank X; the invalid item is dropped and the valid one survives as if
the invalid one were never present. -/
theorem spec2_C4_witness :
    validate_depression_index []
      [JVal.jobj [("name", JVal.jstr "n"), ("rank", JVal.jstr "S"),
        ("comment", JVal.jstr "c")],
       JVal.jobj [("name", JVal.jstr "m"), ("rank", JVal.jstr "X"),
        ("comment", JVal.jstr "d")]] =
    validate_depression_index []
      [JVal.jobj [("name", JVal.jstr "n"), ("rank", JVal.jstr "S"),
        ("comment", JVal.jstr "c")]] := by
  have h := spec2_C4 []
    [JVal.jobj [("name", JVal.jstr "n"), ("rank", JVal.jstr "S"),
      ("comment", JVal.jstr "c")]] []
    [("name", JVal.jstr "m"), ("rank", JVal.jstr "X"), ("comment", JVal.jstr "d")]
    (JVal.jstr "X") rfl (by decide)
  simpa using h

/-- C8: a titled-profile item whose personality tag, uppercased and
trimmed, is outside the 16-value closed set is still emitted, with the
tag forced to the default ENFP, provided name, title and reason are
present and truncate to non-empty strings; the surrounding batch is
unaffected. -/
theorem spec2_C8 :
    ∀ (maxT maxR : Nat) (ustats : List (String × String))
      (pre post : List JVal) (fields : List (String × JVal)),
      hasKey fields "name" = true → hasKey fields "title" = true →
      hasKey fields "mbti" = true → hasKey fields "reason" = true →
      pyStrip (pyUpper (pyStr (getKey fields "mbti"))) ∉ validMbti →
      pyTake (pyStr (getKey fields "name")) 50 ≠ "" →
      pyTake (pyStr (getKey fields "title")) maxT ≠ "" →
      pyTake (pyStr (getKey fields "reason")) maxR ≠ "" →
      validate_titles maxT maxR ustats (pre ++ JVal.jobj fields :: post) =
        validate_titles maxT maxR ustats pre ++
          { name := pyTake (pyStr (getKey fields "name")) 50,
            title := pyTake (pyStr (getKey fields "title")) maxT,
            mbti := "ENFP",
            reason := pyTake (pyStr (getKey fields "reason")) maxR,
            user_id := backfillUid ustats (pyTake (pyStr (getKey fields "name")) 50) } ::
          validate_titles maxT maxR ustats post := by
  intro maxT maxR ustats pre post fields h1 h2 h3 h4 hm hn ht hr
  have hitem : validateTitleItem maxT maxR ustats (JVal.jobj fields) =
      some { name := pyTake (pyStr (getKey fields "name")) 50,
             title := pyTake (pyStr (getKey fields "title")) maxT,
             mbti := "ENFP",
             reason := pyTake (pyStr (getKey fields "reason")) maxR,
             user_id := backfillUid ustats
               (pyTake (pyStr (getKey fields "name")) 50) } := by
    simp only [validateTitleItem]
    rw [if_pos (by simp [h1, h2, h3, h4])]
    rw [if_neg hm, if_pos ⟨hn, ht, hr⟩]
  simp [validate_titles, List.filterMap_append, List.filterMap_cons, hitem]

/-- Witness for C8: an item with tag xyz1 is emitted with tag ENFP and
a backfilled user id, between an untouched valid sibling batch. -/
theorem spec2_C8_witness :
    validate_titles 10 10 [("42", "n")]
      [JVal.jobj [("name", JVal.jstr "n"), ("title", JVal.jstr "t"),
        ("mbti", JVal.jstr "xyz1"), ("reason", JVal.jstr "r")]] =
      [{ name := "n", title := "t", mbti := "ENFP", reason := "r",
         user_id := "42" }] := by
  have h := spec2_C8 10 10 [("42", "n")] [] []
    [("name", JVal.jstr "n"), ("title", JVal.jstr "t"),
     ("mbti", JVal.jstr "xyz1"), ("reason", JVal.jstr "r")]
    (by decide) (by decide) (by decide) (by decide) (by decide)
    (by decide) (by decide) (by decide)
  simpa using h

/-- Every CJK ideograph lies inside the emoji character class: the
sixth range of EMOJI_PATTERN (24C2 to 1F251) contains 4E00 to 9FFF. -/
theorem isIdeo_imp_emoji (c : Char) (h : isIdeo c = true) :
    isEmojiChar c = true := by
  simp [isIdeo] at h
  simp [isEmojiChar]
  omega

/-- Characters surviving emoji removal are outside the emoji class. -/
theorem mem_emojiSub {c : Char} {l : List Char} (h : c ∈ emojiSub l) :
    isEmojiChar c = false := by
  have := (List.mem_filter.mp h).2
  simpa using this

/-- The bracket-span slice keeps only characters of the input. -/
theorem mem_extractSpan {c : Char} {openB closeB : Char} {l : List Char}
    (h : c ∈ extractSpan openB closeB l) : c ∈ l := by
  unfold extractSpan at h
  split at h
  · split at h
    · exact List.mem_of_mem_drop (List.mem_of_mem_take h)
    · exact h
  · exact h

/-- A whitespace-collapse pass whose left capture class matches no
character of the input changes nothing. -/
theorem fixPairF_id_of_noP (p q : Char → Bool) :
    ∀ (f : Nat) (l : List Char), (∀ c ∈ l, p c = false) →
      fixPairF p q f l = l := by
  intro f
  induction f with
  | zero => intro l _; cases l <;> rfl
  | succ f ih =>
    intro l h
    cases l with
    | nil => rfl
    | cons c rest =>
      have hpc : p c = false := h c (List.mem_cons_self _ _)
      have htail : ∀ d ∈ rest, p d = false :=
        fun d hd => h d (List.mem_cons_of_mem _ hd)
      simp [fixPairF, hpc, ih rest htail]

/-- A whitespace-collapse pass whose right capture class matches no
character of the input changes nothing. -/
theorem fixPairF_id_of_noQ (p q : Char → Bool) :
    ∀ (f : Nat) (l : List Char), (∀ c ∈ l, q c = false) →
      fixPairF p q f l = l := by
  intro f
  induction f with
  | zero => intro l _; cases l <;> rfl
  | succ f ih =>
    intro l h
    cases l with
    | nil => rfl
    | cons c rest =>
      have htail : ∀ d ∈ rest, q d = false :=
        fun d hd => h d (List.mem_cons_of_mem _ hd)
      by_cases hc : (p c && !(rest.takeWhile isPyWs).isEmpty) = true
      · cases hdw : rest.dropWhile isPyWs with
        | nil =>
          simp [fixPairF, hc, hdw, ih rest htail]
        | cons d rest2 =>
          have hd : d ∈ rest := by
            have hmem : d ∈ rest.dropWhile isPyWs := by
              rw [hdw]; exact List.mem_cons_self _ _
            exact List.dropWhile_subset isPyWs hmem
          have hqd : q d = false := htail d hd
          simp [fixPairF, hc, hdw, hqd, ih rest htail]
      · simp [fixPairF, hc, ih rest htail]

theorem fixPair_id_of_noP (p q : Char → Bool) (l : List Char)
    (h : ∀ c ∈ l, p c = false) : fixPair p q l = l :=
  fixPairF_id_of_noP p q l.length l h

theorem fixPair_id_of_noQ (p q : Char → Bool) (l : List Char)
    (h : ∀ c ∈ l, q c = false) : fixPair p q l = l :=
  fixPairF_id_of_noQ p q l.length l h

/-- C2: for both expect kinds, the repair tier cleans the sliced text
by removing all emoji-range codepoints, re-locating the bracket span,
and collapsing whitespace between adjacent ideographs and between an
ideograph and an adjacent digit in both directions: the array repair
code applies exactly these steps, and the object repair code, which
writes only the ideograph-ideograph collapse, computes the same
function, because the ideograph range is contained in the removed
emoji ranges, so after removal every collapse pass (those written and
those omitted) is the identity. -/
theorem spec2_C2 : ∀ l : List Char,
    tier2CleanArray l = tier2CleanSpec '[' ']' l ∧
    tier2CleanObject l = tier2CleanSpec lbrace rbrace l := by
  intro l
  constructor
  · rfl
  · have hfree : ∀ c ∈ extractSpan lbrace rbrace (emojiSub l),
        isIdeo c = false := by
      intro c hc
      have hne : isEmojiChar c = false := mem_emojiSub (mem_extractSpan hc)
      by_contra hcon
      have hi : isIdeo c = true := by
        cases hcase : isIdeo c
        · exact absurd hcase hcon
        · rfl
      have hmix := isIdeo_imp_emoji c hi
      rw [hmix] at hne
      exact absurd hne (by simp)
    unfold tier2CleanObject tier2CleanSpec
    rw [fixPair_id_of_noP isIdeo isIdeo _ hfree,
      fixPair_id_of_noP isIdeo isDigitCh _ hfree,
      fixPair_id_of_noQ isDigitCh isIdeo _ hfree]

/-- Incrementing one cell below n raises the sum over range n by 1. -/
theorem sum_range_if (g : Nat → Nat) (h : Nat) :
    ∀ n : Nat, h < n →
      ((List.range n).map (fun k => if k = h then g k + 1 else g k)).sum
        = ((List.range n).map g).sum + 1 := by
  intro n
  induction n with
  | zero => intro hh; omega
  | succ n ih =>
    intro hh
    rw [List.range_succ, List.map_append, List.map_append,
      List.sum_append, List.sum_append]
    by_cases hh2 : h = n
    · subst hh2
      have hpre : (List.range h).map (fun k => if k = h then g k + 1 else g k)
          = (List.range h).map g := by
        apply List.map_congr_left
        intro k hk
        have : k < h := List.mem_range.mp hk
        simp [Nat.ne_of_lt this]
      rw [hpre]
      simp
      omega
    · have hlt : h < n := by omega
      rw [ih hlt]
      have hh3 : n ≠ h := fun hx => hh2 hx.symm
      simp [hh3]
      omega

theorem hourSum_empty (nick : String) : hourSum (emptyStats nick) = 0 := by
  simp [hourSum, emptyStats]

theorem hourSum_bump (hourFn : Int → Nat) (m : ChatMessage) (s : UserStats)
    (hh : hourFn m.time < 24) :
    hourSum (bumpStats hourFn m s) = hourSum s + 1 := by
  unfold hourSum bumpStats
  exact sum_range_if s.hours (hourFn m.time) 24 hh

theorem lookup_none_not_key (uid : String) :
    ∀ (acc : List (String × UserStats)), List.lookup uid acc = none →
      uid ∉ acc.map Prod.fst := by
  intro acc
  induction acc with
  | nil => intro _ hm; simp at hm
  | cons p rest ih =>
    intro h hm
    obtain ⟨k, v⟩ := p
    by_cases hbe : uid = k
    · subst hbe
      simp [List.lookup] at h
    · rw [List.map_cons] at hm
      rcases List.mem_cons.mp hm with h1 | h1
      · exact hbe h1
      · have h2 : List.lookup uid rest = none := by
          simpa [List.lookup, beq_eq_false_iff_ne.mpr hbe] using h
        exact ih h2 h1

theorem updateEntry_map_fst (uid : String) (f : UserStats → UserStats) :
    ∀ acc : List (String × UserStats),
      (updateEntry uid f acc).map Prod.fst = acc.map Prod.fst := by
  intro acc
  induction acc with
  | nil => rfl
  | cons p rest ih =>
    obtain ⟨k, v⟩ := p
    by_cases hk : k = uid
    · simp [updateEntry, hk]
    · simp [updateEntry, hk, ih]

theorem updateEntry_msum (uid : String) (f : UserStats → UserStats)
    (hf : ∀ v, (f v).message_count = v.message_count + 1) :
    ∀ acc : List (String × UserStats), uid ∈ acc.map Prod.fst →
      msgCountSum (updateEntry uid f acc) = msgCountSum acc + 1 := by
  intro acc
  induction acc with
  | nil => intro hm; simp at hm
  | cons p rest ih =>
    intro hm
    obtain ⟨k, v⟩ := p
    by_cases hk : k = uid
    · simp [updateEntry, hk, msgCountSum, hf v]
      omega
    · have h1 : uid ∈ rest.map Prod.fst := by
        rw [List.map_cons] at hm
        rcases List.mem_cons.mp hm with h1 | h1
        · exact absurd h1.symm hk
        · exact h1
      have := ih h1
      simp [updateEntry, hk, msgCountSum] at this ⊢
      omega

theorem mem_updateEntry (uid : String) (f : UserStats → UserStats) :
    ∀ (acc : List (String × UserStats)) (p : String × UserStats),
      (acc.map Prod.fst).Nodup → p ∈ updateEntry uid f acc →
      (p ∈ acc ∧ p.1 ≠ uid) ∨ (∃ v, (uid, v) ∈ acc ∧ p = (uid, f v)) := by
  intro acc
  induction acc with
  | nil => intro p _ hp; simp [updateEntry] at hp
  | cons q rest ih =>
    intro p hnd hp
    obtain ⟨k, v⟩ := q
    rw [List.map_cons] at hnd
    have hnd2 := List.nodup_cons.mp hnd
    by_cases hk : k = uid
    · subst hk
      rw [updateEntry, if_pos rfl] at hp
      rcases List.mem_cons.mp hp with h1 | h1
      · right; exact ⟨v, List.mem_cons_self _ _, h1⟩
      · left
        refine ⟨List.mem_cons_of_mem _ h1, ?_⟩
        intro hpk
        have hmem : p.1 ∈ rest.map Prod.fst := List.mem_map_of_mem Prod.fst h1
        rw [hpk] at hmem
        exact hnd2.1 hmem
    · rw [updateEntry, if_neg hk] at hp
      rcases List.mem_cons.mp hp with h1 | h1
      · left
        constructor
        · rw [h1]; exact List.mem_cons_self _ _
        · rw [h1]; exact hk
      · rcases ih p hnd2.2 h1 with h2 | h2
        · exact Or.inl ⟨List.mem_cons_of_mem _ h2.1, h2.2⟩
        · obtain ⟨w, hw1, hw2⟩ := h2
          exact Or.inr ⟨w, List.mem_cons_of_mem _ hw1, hw2⟩

theorem emojiTotal_append_single (k : String) (L : List ChatMessage)
    (m : ChatMessage) :
    emojiTotal k (L ++ [m]) =
      emojiTotal k L + (if m.user_id = k then count_emojis m.effText else 0) := by
  unfold emojiTotal
  rw [List.filter_append]
  by_cases hm : m.user_id = k
  · simp [hm]
  · simp [hm]

theorem emojiTotal_zero_of_fresh (k : String) (L : List ChatMessage)
    (h : ∀ m ∈ L, m.user_id ≠ k) : emojiTotal k L = 0 := by
  unfold emojiTotal
  have hf : L.filter (fun m => m.user_id = k) = [] := by
    rw [List.filter_eq_nil_iff]
    intro a ha
    simp [h a ha]
  rw [hf]
  rfl

theorem lookup_some_key (uid : String) :
    ∀ (acc : List (String × UserStats)) (v : UserStats),
      List.lookup uid acc = some v → uid ∈ acc.map Prod.fst := by
  intro acc
  induction acc with
  | nil => intro v h; simp [List.lookup] at h
  | cons p rest ih =>
    intro v h
    obtain ⟨k, w⟩ := p
    by_cases hbe : uid = k
    · rw [List.map_cons]
      subst hbe
      exact List.mem_cons_self _ _
    · have h2 : List.lookup uid rest = some v := by
        simpa [List.lookup, beq_eq_false_iff_ne.mpr hbe] using h
      rw [List.map_cons]
      exact List.mem_cons_of_mem _ (ih v h2)

/-- One pass of the aggregation loop preserves the invariant. -/
theorem statsStep_inv (hourFn : Int → Nat) (hbound : ∀ t, hourFn t < 24)
    (acc : List (String × UserStats)) (L : List ChatMessage) (m : ChatMessage)
    (hinv : statsInv acc L) : statsInv (statsStep hourFn acc m) (L ++ [m]) := by
  obtain ⟨hnd, hne, hsum, hhour, hemoji, hfresh⟩ := hinv
  have hbump_mc : ∀ s, (bumpStats hourFn m s).message_count = s.message_count + 1 :=
    fun s => rfl
  have hbump_em : ∀ s, (bumpStats hourFn m s).emoji_count =
      s.emoji_count + count_emojis m.effText := fun s => rfl
  by_cases hid : m.user_id = ""
  · have hstep : statsStep hourFn acc m = acc := by
      simp [statsStep, hid]
    rw [hstep]
    refine ⟨hnd, hne, ?_, hhour, ?_, ?_⟩
    · rw [List.filter_append]
      have hnil : List.filter (fun m2 => decide (m2.user_id ≠ "")) [m] = [] := by
        simp [hid]
      simp only [hnil, List.append_nil]
      exact hsum
    · intro p hp
      rw [emojiTotal_append_single]
      have hp1 : p.1 ≠ "" := hne p hp
      have hmm : ¬ (m.user_id = p.1) := by
        rw [hid]; exact fun hx => hp1 hx.symm
      rw [if_neg hmm]
      simpa using hemoji p hp
    · intro m2 hm2 hm2ne
      rcases List.mem_append.mp hm2 with h1 | h1
      · exact hfresh m2 h1 hm2ne
      · have hm2m : m2 = m := by simpa using h1
        rw [hm2m] at hm2ne
        exact absurd hid hm2ne
  · cases hlk : List.lookup m.user_id acc with
    | none =>
      have hstep : statsStep hourFn acc m =
          acc ++ [(m.user_id, bumpStats hourFn m (emptyStats m.nickname))] := by
        simp [statsStep, hid, hlk]
      rw [hstep]
      have hnotkey : m.user_id ∉ acc.map Prod.fst := lookup_none_not_key _ acc hlk
      have hLfresh : ∀ m2 ∈ L, m2.user_id ≠ m.user_id := by
        intro m2 hm2 hx
        by_cases h2 : m2.user_id = ""
        · rw [h2] at hx; exact hid hx.symm
        · exact hnotkey (hx ▸ hfresh m2 hm2 h2)
      refine ⟨?_, ?_, ?_, ?_, ?_, ?_⟩
      · rw [List.map_append]
        refine List.Nodup.append hnd (by simp) ?_
        simpa using hnotkey
      · intro p hp
        rcases List.mem_append.mp hp with h1 | h1
        · exact hne p h1
        · have : p = (m.user_id, bumpStats hourFn m (emptyStats m.nickname)) := by
            simpa using h1
          rw [this]
          exact hid
      · rw [List.filter_append]
        have hone : List.filter (fun m2 => decide (m2.user_id ≠ "")) [m] = [m] := by
          simp [hid]
        rw [hone]
        unfold msgCountSum at hsum ⊢
        rw [List.map_append, List.sum_append, hsum, List.length_append]
        simp [hbump_mc, emptyStats]
      · intro p hp
        rcases List.mem_append.mp hp with h1 | h1
        · exact hhour p h1
        · have hpe : p = (m.user_id, bumpStats hourFn m (emptyStats m.nickname)) := by
            simpa using h1
          rw [hpe]
          have := hourSum_bump hourFn m (emptyStats m.nickname) (hbound m.time)
          rw [this, hourSum_empty, hbump_mc]
          simp [emptyStats]
      · intro p hp
        rcases List.mem_append.mp hp with h1 | h1
        · rw [emojiTotal_append_single]
          have hpne : ¬ (m.user_id = p.1) := by
            intro hx
            exact hnotkey (hx ▸ List.mem_map_of_mem Prod.fst h1)
          rw [if_neg hpne]
          simpa using hemoji p h1
        · have hpe : p = (m.user_id, bumpStats hourFn m (emptyStats m.nickname)) := by
            simpa using h1
          rw [hpe]
          rw [emojiTotal_append_single, if_pos rfl]
          rw [emojiTotal_zero_of_fresh _ _ hLfresh]
          rw [hbump_em]
          simp [emptyStats]
      · intro m2 hm2 hm2ne
        rw [List.map_append]
        rcases List.mem_append.mp hm2 with h1 | h1
        · exact List.mem_append_left _ (hfresh m2 h1 hm2ne)
        · have hm2m : m2 = m := by simpa using h1
          rw [hm2m]
          exact List.mem_append_right _ (by simp)
    | some v =>
      have hstep : statsStep hourFn acc m =
          updateEntry m.user_id (bumpStats hourFn m) acc := by
        simp [statsStep, hid, hlk]
      rw [hstep]
      have hkey : m.user_id ∈ acc.map Prod.fst := lookup_some_key _ acc v hlk
      refine ⟨?_, ?_, ?_, ?_, ?_, ?_⟩
      · rw [updateEntry_map_fst]
        exact hnd
      · intro p hp
        rcases mem_updateEntry _ _ acc p hnd hp with h1 | h1
        · exact hne p h1.1
        · obtain ⟨w, hw1, hw2⟩ := h1
          rw [hw2]
          exact hid
      · rw [updateEntry_msum _ _ hbump_mc acc hkey]
        rw [List.filter_append]
        have hone : List.filter (fun m2 => decide (m2.user_id ≠ "")) [m] = [m] := by
          simp [hid]
        rw [hone, List.length_append, hsum]
        simp
      · intro p hp
        rcases mem_updateEntry _ _ acc p hnd hp with h1 | h1
        · exact hhour p h1.1
        · obtain ⟨w, hw1, hw2⟩ := h1
          rw [hw2]
          have := hourSum_bump hourFn m w (hbound m.time)
          rw [this, hbump_mc]
          have := hhour (m.user_id, w) hw1
          simp at this ⊢
          omega
      · intro p hp
        rcases mem_updateEntry _ _ acc p hnd hp with h1 | h1
        · rw [emojiTotal_append_single]
          have hpne : ¬ (m.user_id = p.1) := fun hx => h1.2 hx.symm
          rw [if_neg hpne]
          simpa using hemoji p h1.1
        · obtain ⟨w, hw1, hw2⟩ := h1
          rw [hw2]
          rw [emojiTotal_append_single, if_pos rfl]
          rw [hbump_em]
          have := hemoji (m.user_id, w) hw1
          simp at this ⊢
          omega
      · intro m2 hm2 hm2ne
        rw [updateEntry_map_fst]
        rcases List.mem_append.mp hm2 with h1 | h1
        · exact hfresh m2 h1 hm2ne
        · have hm2m : m2 = m := by simpa using h1
          rw [hm2m]
          exact hkey

theorem statsInv_nil : statsInv [] [] := by
  refine ⟨by simp, by simp, by simp [msgCountSum], by simp, by simp, by simp⟩

theorem statsInv_fold (hourFn : Int → Nat) (hbound : ∀ t, hourFn t < 24) :
    ∀ (msgs : List ChatMessage) (acc : List (String × UserStats))
      (L : List ChatMessage), statsInv acc L →
      statsInv (msgs.foldl (statsStep hourFn) acc) (L ++ msgs) := by
  intro msgs
  induction msgs with
  | nil => intro acc L h; simpa using h
  | cons m ms ih =>
    intro acc L h
    rw [List.foldl_cons]
    have h3 := ih (statsStep hourFn acc m) (L ++ [m])
      (statsStep_inv hourFn hbound acc L m h)
    have hassoc : L ++ [m] ++ ms = L ++ m :: ms := by simp
    rwa [hassoc] at h3

/-- The aggregation result satisfies the loop invariant taken over the
whole transcript. -/
theorem stats_inv_analyze (hourFn : Int → Nat) (hbound : ∀ t, hourFn t < 24)
    (msgs : List ChatMessage) :
    statsInv (analyze_user_stats hourFn msgs) msgs := by
  have h := statsInv_fold hourFn hbound msgs [] [] statsInv_nil
  simpa [analyze_user_stats] using h

/-- C7: the two conservation equations of the stats aggregation.  The
total of message_count over all users equals the number of transcript
messages with a non-empty user id, and for every user the 24 hourly
buckets sum back to that user's message_count.  hourFn stands for the
zone-local hour of a timestamp, which always lies in 0..23. -/
theorem spec2_C7 :
    ∀ (hourFn : Int → Nat) (msgs : List ChatMessage), (∀ t, hourFn t < 24) →
      msgCountSum (analyze_user_stats hourFn msgs) =
        (msgs.filter (fun m => m.user_id ≠ "")).length ∧
      ∀ p ∈ analyze_user_stats hourFn msgs, hourSum p.2 = p.2.message_count := by
  intro hourFn msgs hb
  have h := stats_inv_analyze hourFn hb msgs
  exact ⟨h.2.2.1, h.2.2.2.1⟩

/-- Witness for C7: a three-message transcript, one message with an
empty user id, evaluated at the constant hour function 0. -/
theorem spec2_C7_witness :
    msgCountSum (analyze_user_stats (fun _ => 0)
      [⟨"u1", "n1", some "hi", 0⟩, ⟨"", "x", none, 0⟩,
       ⟨"u1", "n1", some "yo", 0⟩]) =
      (([⟨"u1", "n1", some "hi", 0⟩, ⟨"", "x", none, 0⟩,
        ⟨"u1", "n1", some "yo", 0⟩] : List ChatMessage).filter
          (fun m => m.user_id ≠ "")).length ∧
    ∀ p ∈ analyze_user_stats (fun _ => 0)
      [⟨"u1", "n1", some "hi", 0⟩, ⟨"", "x", none, 0⟩,
       ⟨"u1", "n1", some "yo", 0⟩], hourSum p.2 = p.2.message_count :=
  spec2_C7 (fun _ => 0)
    [⟨"u1", "n1", some "hi", 0⟩, ⟨"", "x", none, 0⟩,
     ⟨"u1", "n1", some "yo", 0⟩] (fun _ => by simp)

/-- C9: the emoji counter counts maximal runs of emoji-class
codepoints, not single codepoints: two adjacent emoji count 1, the
same two separated by a non-emoji character count 2; and this run
count is exactly what accumulates into every emoji_count of the
aggregation (the per-user sum of run counts over that user's
messages). -/
theorem spec2_C9 :
    (∀ e1 e2 : Char, isEmojiChar e1 = true → isEmojiChar e2 = true →
      count_emojis ⟨[e1, e2]⟩ = 1) ∧
    (∀ e1 c e2 : Char, isEmojiChar e1 = true → isEmojiChar e2 = true →
      isEmojiChar c = false → count_emojis ⟨[e1, c, e2]⟩ = 2) ∧
    (∀ (hourFn : Int → Nat) (msgs : List ChatMessage)
      (p : String × UserStats), (∀ t, hourFn t < 24) →
      p ∈ analyze_user_stats hourFn msgs →
      p.2.emoji_count = emojiTotal p.1 msgs) := by
  refine ⟨?_, ?_, ?_⟩
  · intro e1 e2 h1 h2
    simp [count_emojis, countRunsAux, String.toList, h1, h2]
  · intro e1 c e2 h1 h2 h3
    simp [count_emojis, countRunsAux, String.toList, h1, h2, h3]
  · intro hourFn msgs p hb hp
    exact (stats_inv_analyze hourFn hb msgs).2.2.2.2.1 p hp

/-- Witness for C9: two concrete grinning-face codepoints adjacent and
separated, and the aggregation of a one-message transcript. -/
theorem spec2_C9_witness :
    count_emojis ⟨[Char.ofNat 0x1F600, Char.ofNat 0x1F601]⟩ = 1 ∧
    count_emojis ⟨[Char.ofNat 0x1F600, 'a', Char.ofNat 0x1F601]⟩ = 2 ∧
    (("u1", bumpStats (fun _ => 0) ⟨"u1", "n1", some "hi", 0⟩
        (emptyStats "n1")) : String × UserStats).2.emoji_count =
      emojiTotal "u1" [⟨"u1", "n1", some "hi", 0⟩] :=
  ⟨spec2_C9.1 _ _ (by decide) (by decide),
   spec2_C9.2.1 _ _ _ (by decide) (by decide) (by decide),
   spec2_C9.2.2 (fun _ => 0) [⟨"u1", "n1", some "hi", 0⟩] _
     (fun _ => by simp) (List.mem_singleton_self _)⟩

theorem mem_insertByScore (x e : RankEntry) :
    ∀ l : List RankEntry, e ∈ insertByScore x l ↔ e = x ∨ e ∈ l := by
  intro l
  induction l with
  | nil => simp [insertByScore]
  | cons y ys ih =>
    rw [insertByScore]
    by_cases hc : y.score ≤ x.score
    · rw [if_pos hc]
      simp
    · rw [if_neg hc]
      simp [ih]
      tauto

theorem mem_sortByScoreDesc (e : RankEntry) :
    ∀ l : List RankEntry, e ∈ sortByScoreDesc l ↔ e ∈ l := by
  intro l
  induction l with
  | nil => simp [sortByScoreDesc]
  | cons y ys ih =>
    rw [sortByScoreDesc, mem_insertByScore]
    simp [ih]

theorem default_score_bounds (r : String) :
    0 ≤ ((rankDefaultScores.lookup r).getD 75) ∧
      ((rankDefaultScores.lookup r).getD 75) ≤ 150 := by
  simp only [rankDefaultScores, List.lookup]
  repeat' split
  all_goals decide

theorem validateDepItem_score_bounds (ustats : List (String × String))
    (item : JVal) (e : RankEntry)
    (h : validateDepItem ustats item = some e) :
    0 ≤ e.score ∧ e.score ≤ 150 := by
  cases item with
  | jobj fields =>
    simp only [validateDepItem] at h
    split at h
    · split at h
      · split at h
        · rw [Option.some_inj] at h
          subst h
          simp only
          cases hpi : pyInt (getKeyD fields "score" (JVal.jnum 0)) with
          | some n =>
            simp only [hpi]
            constructor
            · exact le_max_left 0 _
            · exact max_le (by norm_num) (min_le_left 150 n)
          | none =>
            simp only [hpi]
            exact default_score_bounds _
        · exact absurd h (by simp)
      · exact absurd h (by simp)
    · exact absurd h (by simp)
  | jnull => exact absurd h (by simp [validateDepItem])
  | jbool b => exact absurd h (by simp [validateDepItem])
  | jnum n => exact absurd h (by simp [validateDepItem])
  | jstr s => exact absurd h (by simp [validateDepItem])
  | jarr xs => exact absurd h (by simp [validateDepItem])

theorem pairwise_insertByScore (x : RankEntry) :
    ∀ l : List RankEntry,
      List.Pairwise (fun a b => b.score ≤ a.score) l →
      List.Pairwise (fun a b => b.score ≤ a.score) (insertByScore x l) := by
  intro l
  induction l with
  | nil => intro _; simp [insertByScore]
  | cons y ys ih =>
    intro h
    have hp := List.pairwise_cons.mp h
    rw [insertByScore]
    by_cases hc : y.score ≤ x.score
    · rw [if_pos hc]
      refine List.pairwise_cons.mpr ⟨?_, h⟩
      intro z hz
      rcases List.mem_cons.mp hz with h1 | h1
      · rw [h1]; exact hc
      · exact le_trans (hp.1 z h1) hc
    · rw [if_neg hc]
      refine List.pairwise_cons.mpr ⟨?_, ih hp.2⟩
      intro z hz
      rcases (mem_insertByScore x z ys).mp hz with h1 | h1
      · rw [h1]; omega
      · exact hp.1 z h1

theorem pairwise_sortByScoreDesc :
    ∀ l : List RankEntry,
      List.Pairwise (fun a b => b.score ≤ a.score) (sortByScoreDesc l) := by
  intro l
  induction l with
  | nil => simp [sortByScoreDesc]
  | cons y ys ih =>
    rw [sortByScoreDesc]
    exact pairwise_insertByScore y _ ih

theorem filter_insertByScore (s : Int) (x : RankEntry) :
    ∀ l : List RankEntry,
      (insertByScore x l).filter (fun e => e.score = s) =
        if x.score = s then x :: l.filter (fun e => e.score = s)
        else l.filter (fun e => e.score = s) := by
  intro l
  induction l with
  | nil =>
    by_cases hx : x.score = s <;> simp [insertByScore, hx]
  | cons y ys ih =>
    rw [insertByScore]
    by_cases hc : y.score ≤ x.score
    · rw [if_pos hc]
      by_cases hx : x.score = s <;> simp [hx, List.filter_cons]
    · rw [if_neg hc]
      by_cases hx : x.score = s
      · have hy : ¬ (y.score = s) := by omega
        rw [if_pos hx, List.filter_cons, List.filter_cons, ih, if_pos hx]
        simp [hy]
      · rw [if_neg hx, List.filter_cons, List.filter_cons, ih, if_neg hx]

theorem filter_sortByScoreDesc (s : Int) :
    ∀ l : List RankEntry,
      (sortByScoreDesc l).filter (fun e => e.score = s) =
        l.filter (fun e => e.score = s) := by
  intro l
  induction l with
  | nil => simp [sortByScoreDesc]
  | cons y ys ih =>
    rw [sortByScoreDesc, filter_insertByScore]
    by_cases hy : y.score = s
    · rw [if_pos hy, ih, List.filter_cons]
      simp [hy]
    · rw [if_neg hy, ih, List.filter_cons]
      simp [hy]

/-- C3: for every input batch, the rank-index validator returns
entries whose scores all lie in 0..150, in non-increasing score order,
and stable on ties: filtering the output to any fixed score value
gives exactly the surviving items of that score in their original
input order. -/
theorem spec2_C3 :
    ∀ (ustats : List (String × String)) (data : List JVal),
      (∀ e ∈ validate_depression_index ustats data,
        0 ≤ e.score ∧ e.score ≤ 150) ∧
      List.Pairwise (fun a b => b.score ≤ a.score)
        (validate_depression_index ustats data) ∧
      ∀ s : Int,
        (validate_depression_index ustats data).filter (fun e => e.score = s) =
          (data.filterMap (validateDepItem ustats)).filter
            (fun e => e.score = s) := by
  intro ustats data
  refine ⟨?_, ?_, ?_⟩
  · intro e he
    rw [validate_depression_index, mem_sortByScoreDesc] at he
    obtain ⟨item, hmem, hitem⟩ := List.mem_filterMap.mp he
    exact validateDepItem_score_bounds ustats item e hitem
  · exact pairwise_sortByScoreDesc _
  · intro s
    rw [validate_depression_index, filter_sortByScoreDesc]

/-- Witness for C3 at a concrete batch: one rank D item before a rank
S item, plus an item with a tied score. -/
theorem spec2_C3_witness :
    (∀ e ∈ validate_depression_index []
      [JVal.jobj [("name", JVal.jstr "a"), ("rank", JVal.jstr "D"),
        ("comment", JVal.jstr "c")],
       JVal.jobj [("name", JVal.jstr "b"), ("rank", JVal.jstr "S"),
        ("comment", JVal.jstr "c")],
       JVal.jobj [("name", JVal.jstr "d"), ("rank", JVal.jstr "S"),
        ("comment", JVal.jstr "c")]],
      0 ≤ e.score ∧ e.score ≤ 150) ∧
    List.Pairwise (fun a b => b.score ≤ a.score)
      (validate_depression_index []
        [JVal.jobj [("name", JVal.jstr "a"), ("rank", JVal.jstr "D"),
          ("comment", JVal.jstr "c")],
         JVal.jobj [("name", JVal.jstr "b"), ("rank", JVal.jstr "S"),
          ("comment", JVal.jstr "c")],
         JVal.jobj [("name", JVal.jstr "d"), ("rank", JVal.jstr "S"),
          ("comment", JVal.jstr "c")]]) :=
  ⟨(spec2_C3 []
      [JVal.jobj [("name", JVal.jstr "a"), ("rank", JVal.jstr "D"),
        ("comment", JVal.jstr "c")],
       JVal.jobj [("name", JVal.jstr "b"), ("rank", JVal.jstr "S"),
        ("comment", JVal.jstr "c")],
       JVal.jobj [("name", JVal.jstr "d"), ("rank", JVal.jstr "S"),
        ("comment", JVal.jstr "c")]]).1,
   (spec2_C3 []
      [JVal.jobj [("name", JVal.jstr "a"), ("rank", JVal.jstr "D"),
        ("comment", JVal.jstr "c")],
       JVal.jobj [("name", JVal.jstr "b"), ("rank", JVal.jstr "S"),
        ("comment", JVal.jstr "c")],
       JVal.jobj [("name", JVal.jstr "d"), ("rank", JVal.jstr "S"),
        ("comment", JVal.jstr "c")]]).2.1⟩

/-- C10: array-kind recovery is total and always yields a list whose
elements are all mappings; exhausting both tiers returns the empty
list, and so does a successfully parsed empty array, so an absent
result and a valid empty result coincide at this interface, while the
object-kind recovery returns the distinct absent value none. -/
theorem spec2_C10 :
    (∀ (s : String) (v : JVal), v ∈ parse_llm_json s → isObj v = true) ∧
    parse_llm_json "[]" = [] ∧
    parse_llm_json "no json here" = [] ∧
    parse_llm_json_object "no json here" = none := by
  refine ⟨?_, by rfl, by rfl, by rfl⟩
  intro s v hv
  simp only [parse_llm_json] at hv
  split at hv
  · split at hv
    · next hall => exact List.all_eq_true.mp hall v hv
    · simp at hv
  · simp at hv
  · split at hv
    · split at hv
      · next hall => exact List.all_eq_true.mp hall v hv
      · simp at hv
    · simp at hv

/-- Witness for C10: the single element recovered from a well-formed
one-object array is a mapping. -/
theorem spec2_C10_witness :
    isObj (JVal.jobj [("a", JVal.jnum 1)]) = true := by
  have hq : parse_llm_json "[\x7b\"a\": 1\x7d]" = [JVal.jobj [("a", JVal.jnum 1)]] := by
    rfl
  have hmem : (JVal.jobj [("a", JVal.jnum 1)]) ∈ parse_llm_json "[\x7b\"a\": 1\x7d]" := by
    rw [hq]
    exact List.mem_singleton_self _
  exact spec2_C10.1 "[\x7b\"a\": 1\x7d]" (JVal.jobj [("a", JVal.jnum 1)]) hmem
